import Mathlib

/-!
Shallow embedding of the `event_planner` package (files
`src/event_planner/event.py` and `src/event_planner/event_manager.py`).

Modelling conventions:
* `datetime` values are totally ordered and support only comparison in the
  code under study, so they are embedded as `Int` timestamps;
* `UUID` identifiers are embedded as `Nat`; Python keys `str(uuid)` are kept
  as the `Nat` itself, since `str` is injective on `UUID`s;
* Python exceptions become an `Except Err` result; `ValueError` keeps its
  message so distinct errors stay distinct, `KeyError` is a bare tag;
* fresh `uuid4()` results are passed in explicitly as a `fresh : Nat`
  argument wherever the Python code draws one;
* file I/O (`_save_events`) is outside the in-memory behaviour the claims
  are about; the manager state is its `_events` list.
-/

/-- Python exceptions raised by the embedded code: `ValueError` (with its
message) and `KeyError` (from a missing dict key). -/
inductive Err where
  | valueError (msg : String) : Err
  | keyError : Err
deriving Repr, DecidableEq

/-- The `Event` dataclass of `event.py`: fields in source order
(`name`, `start_time`, `end_time`, `id`, `description`). -/
structure Event where
  name : String
  start_time : Int
  end_time : Int
  id : Nat
  description : Option String := none
deriving Repr, DecidableEq

/-- `Event.__post_init__` validation, fused with the dataclass constructor:
building an `Event` raises `ValueError` when `start_time > end_time` or when
`start_time == end_time`, and otherwise yields the record. -/
def mkEvent (name : String) (start_time end_time : Int) (id : Nat)
    (description : Option String) : Except Err Event :=
  if start_time > end_time then
    .error (.valueError "La date de début doit être antérieure à la date de fin")
  else if start_time = end_time then
    .error (.valueError "La date de début et de fin ne peuvent pas être identiques")
  else
    .ok { name := name, start_time := start_time, end_time := end_time,
          id := id, description := description }

/-- The boolean body of `Event.overlaps` (lines 67-78 of `event.py`):
`starts_during or is_encompassing`, literally transcribed. -/
def overlapsBool (e other : Event) : Bool :=
  (((other.start_time ≤ e.start_time && e.start_time < other.end_time) ||
    (e.start_time ≤ other.start_time && other.start_time < e.end_time)) ||
   ((e.start_time ≤ other.start_time && e.end_time ≥ other.end_time) ||
    (other.start_time ≤ e.start_time && other.end_time ≥ e.end_time)))

/-- `Event.overlaps`: raises `ValueError` on identical ids, otherwise returns
the boolean overlap test. -/
def Event.overlaps (e other : Event) : Except Err Bool :=
  if e.id = other.id then
    .error (.valueError "Impossible de comparer un événement avec lui-même")
  else
    .ok (overlapsBool e other)

/-- A persisted event record (one JSON object of the storage file), as
`Event.from_dict` reads it.  Each field can be absent from the dict; `id`,
`start_time` and `end_time` can also be present but unparseable (a string
`UUID(...)` or `datetime.fromisoformat` rejects). -/
structure Record where
  id : Option (Option Nat) := none
  name : Option String := none
  start_time : Option (Option Int) := none
  end_time : Option (Option Int) := none
  description : Option String := none
deriving Repr, DecidableEq

/-- `Event.to_dict`: serialises every field; `id` as its string form, the
times in ISO format, `description` passed through (possibly null). -/
def Event.to_dict (e : Event) : Record :=
  { id := some (some e.id), name := some e.name,
    start_time := some (some e.start_time), end_time := some (some e.end_time),
    description := e.description }

/-- `Event.from_dict`: `data.get('id', str(uuid4()))` falls back to a fresh
id (passed as `fresh`) and raises `ValueError` on an unparseable one;
`data['name']`, `data['start_time']`, `data['end_time']` raise `KeyError`
when absent and the times raise `ValueError` when unparseable;
`data.get('description')` defaults to null; the constructor validation of
`__post_init__` then runs again. -/
def Event.from_dict (data : Record) (fresh : Nat) : Except Err Event := do
  let i : Nat ← match data.id with
    | none => .ok fresh
    | some none => .error (.valueError "badly formed hexadecimal UUID string")
    | some (some v) => .ok v
  let n : String ← match data.name with
    | none => .error .keyError
    | some v => .ok v
  let s : Int ← match data.start_time with
    | none => .error .keyError
    | some none => .error (.valueError "Invalid isoformat string")
    | some (some v) => .ok v
  let t : Int ← match data.end_time with
    | none => .error .keyError
    | some none => .error (.valueError "Invalid isoformat string")
    | some (some v) => .ok v
  mkEvent n s t i data.description

/-- What the storage file can hold when an `EventManager` is constructed:
no file at all, content that `json.load` rejects (`JSONDecodeError`), or a
decoded JSON array of records. -/
inductive Content where
  | missing : Content
  | notJson : Content
  | jsonList (records : List Record) : Content
deriving Repr, DecidableEq

namespace EventManager

/-- The list comprehension of `_load_events`
(`[Event.from_dict(d) for d in events_data]`): built left to right, the
first exception escaping; each `from_dict` call may draw a fresh uuid,
supplied here from the counter `fresh`. -/
def load_records : List Record → Nat → Except Err (List Event)
  | [], _ => .ok []
  | r :: rs, fresh => do
    let e ← Event.from_dict r fresh
    let es ← load_records rs (fresh + 1)
    .ok (e :: es)

/-- `EventManager._load_events` run from the freshly constructed state
(`_events = []`): a missing file keeps the empty list, a
`json.JSONDecodeError` is caught and leaves `_events = []`, and any other
exception of the comprehension escapes to the caller. -/
def load_events (c : Content) : Except Err (List Event) :=
  match c with
  | .missing => .ok []
  | .notJson => .ok []
  | .jsonList records => load_records records 0

/-- `EventManager.has_conflict`: scans `_events` in order, returning at the
first existing event whose `existing_event.overlaps(event)` is true;
an exception of `overlaps` (same id) escapes. -/
def has_conflict (events : List Event) (event : Event) : Except Err Bool :=
  match events with
  | [] => .ok false
  | existing :: rest =>
    match existing.overlaps event with
    | .error err => .error err
    | .ok true => .ok true
    | .ok false => has_conflict rest event

/-- Result of `add_event`: whether `warnings.warn` fired, the new `_events`
list, and the returned boolean. -/
structure AddResult where
  warned : Bool
  events : List Event
  ret : Bool
deriving Repr, DecidableEq

/-- `EventManager.add_event`: warns when `has_conflict` (an exception of
which escapes), then appends the event and returns `True`. -/
def add_event (events : List Event) (event : Event) : Except Err AddResult := do
  let c ← has_conflict events event
  .ok { warned := c, events := events ++ [event], ret := true }

/-- The sort key of `list_events`: Python compares the tuples
`(event.start_time, event.end_time)` lexicographically; this is the
corresponding non-strict order. -/
def keyLe (a b : Event) : Prop :=
  a.start_time < b.start_time ∨
    (a.start_time = b.start_time ∧ a.end_time ≤ b.end_time)

instance : DecidableRel keyLe := fun a b => by
  unfold keyLe; infer_instance

instance : IsTotal Event keyLe :=
  ⟨fun a b => by unfold keyLe; omega⟩

instance : IsTrans Event keyLe :=
  ⟨fun a b c hab hbc => by unfold keyLe at *; omega⟩

/-- `EventManager.list_events`:
`sorted(self._events, key=lambda e: (e.start_time, e.end_time))`.
Python's `sorted` is a stable sort; any stable sort computes the same list,
so it is embedded as Mathlib's stable `insertionSort` over `keyLe` (the
theorems below prove exactly the permutation, sortedness and stability
properties that characterise that list uniquely). -/
def list_events (events : List Event) : List Event :=
  events.insertionSort keyLe

/-- `EventManager.list_events_between`: starts from `list_events()` and
filters; `if start:` / `if end:` test truthiness, and a `datetime` is always
truthy, so the tests hold exactly when the bound was passed. -/
def list_events_between (events : List Event)
    (start stop : Option Int) : List Event :=
  let evs := list_events events
  let evs := match start with
    | none => evs
    | some s => evs.filter (fun e => s ≤ e.end_time)
  match stop with
  | none => evs
  | some t => evs.filter (fun e => e.start_time ≤ t)

/-- The `conflicts` dict of `find_conflicts`: keys (event ids) in insertion
order, values the conflict lists. -/
abbrev ConflictDict := List (Nat × List Event)

/-- Python dict lookup (`d[k]` / `k in d`). -/
def dictLookup (d : ConflictDict) (k : Nat) : Option (List Event) :=
  match d with
  | [] => none
  | (k', v) :: rest => if k' = k then some v else dictLookup rest k

/-- Python dict assignment `d[k] = v`: replaces the value in place when the
key exists, otherwise appends the binding at the end. -/
def dictSet (d : ConflictDict) (k : Nat) (v : List Event) : ConflictDict :=
  match d with
  | [] => [(k, v)]
  | (k', v') :: rest =>
    if k' = k then (k, v) :: rest else (k', v') :: dictSet rest k v

/-- The inner loop body of `find_conflicts`:
`if oid not in conflicts: conflicts[oid] = []` followed by
`conflicts[oid].append(event)` — i.e. append to the existing list, or bind
the key to the one-element list if it was absent. -/
def dictPush (d : ConflictDict) (k : Nat) (e : Event) : ConflictDict :=
  match dictLookup d k with
  | some v => dictSet d k (v ++ [e])
  | none => dictSet d k [e]

/-- The list comprehension of `find_conflicts`
(`[o for o in self._events[i+1:] if event.overlaps(o)]`): a fallible
filter, the first exception escaping. -/
def conflicting_events (event : Event) : List Event → Except Err (List Event)
  | [] => .ok []
  | o :: os => do
    let b ← event.overlaps o
    let rest ← conflicting_events event os
    .ok (if b then o :: rest else rest)

/-- The outer loop of `find_conflicts`: at index `i` the event is compared
against `self._events[i+1:]` (here the tail of the recursion); when its
conflict list is non-empty it is stored under the event's id — overwriting
whatever that key held — and the reverse relation is pushed for each
conflicting event. -/
def find_conflicts_aux : List Event → ConflictDict → Except Err ConflictDict
  | [], conflicts => .ok conflicts
  | event :: rest, conflicts => do
    let cs ← conflicting_events event rest
    let conflicts :=
      if cs.isEmpty then conflicts
      else (cs.foldl (fun d o => dictPush d o.id event)
        (dictSet conflicts event.id cs))
    find_conflicts_aux rest conflicts

/-- `EventManager.find_conflicts`: the pairwise scan starting from the empty
dict. -/
def find_conflicts (events : List Event) : Except Err ConflictDict :=
  find_conflicts_aux events []

end EventManager

/-- Specification-side predicate: `x` has a conflict partner inside `l` —
some event of `l` with a different id that the overlap formula accepts. -/
def hasPartner (x : Event) (l : List Event) : Prop :=
  ∃ y ∈ l, y.id ≠ x.id ∧ overlapsBool x y = true

/-- Specification-side invariant of the `find_conflicts` scan: after the
events of `seen` have been processed (those of `rest` remaining), the dict
holds key `k` exactly when some processed event with id `k` has a partner
anywhere, or some unprocessed event with id `k` has a partner among the
processed ones. -/
def keyAppears (seen rest : List Event) (k : Nat) : Prop :=
  (∃ x ∈ seen, x.id = k ∧ hasPartner x (seen ++ rest)) ∨
    (∃ x ∈ rest, x.id = k ∧ hasPartner x seen)

/-! Helper lemmas shared between claims. -/

/-- The overlap formula of the source is symmetric in its two arguments. -/
theorem overlapsBool_symm (a b : Event) : overlapsBool a b = overlapsBool b a := by
  simp only [overlapsBool]
  rw [Bool.eq_iff_iff]
  simp only [Bool.or_eq_true, Bool.and_eq_true, decide_eq_true_eq]
  omega

/-- For events satisfying the constructor invariant, the overlap formula of
the source coincides with the half-open interval test. -/
theorem overlapsBool_iff (a b : Event) (ha : a.start_time < a.end_time)
    (hb : b.start_time < b.end_time) :
    overlapsBool a b = true ↔
      (a.start_time < b.end_time ∧ b.start_time < a.end_time) := by
  simp only [overlapsBool, Bool.or_eq_true, Bool.and_eq_true, decide_eq_true_eq]
  omega

/-- In a list of events with pairwise distinct ids, an id determines the
event. -/
theorem eq_of_mem_of_id_eq {l : List Event}
    (hp : l.Pairwise fun a b => a.id ≠ b.id) {x e : Event}
    (hx : x ∈ l) (he : e ∈ l) (h : x.id = e.id) : x = e := by
  induction l with
  | nil => cases hx
  | cons a l ih =>
    rcases List.pairwise_cons.mp hp with ⟨ha, hl⟩
    rcases List.mem_cons.mp hx with hxa | hx'
    · rcases List.mem_cons.mp he with hea | he'
      · rw [hxa, hea]
      · subst hxa
        exact absurd h (ha e he')
    · rcases List.mem_cons.mp he with hea | he'
      · subst hea
        exact absurd h.symm (ha x hx')
      · exact ih hl hx' he'

/-! Claim theorems. -/

/-- C9: constructing an `Event` fails with a `ValueError` exactly when
`start_time >= end_time` (equality and the reversed case alike), and
succeeds with the given fields when `start_time < end_time`. -/
theorem mkEvent_valid_iff (name : String) (s t : Int) (i : Nat)
    (d : Option String) :
    (s < t → mkEvent name s t i d =
      .ok { name := name, start_time := s, end_time := t, id := i,
            description := d }) ∧
    (t ≤ s → ∃ msg, mkEvent name s t i d = .error (.valueError msg)) := by
  constructor
  · intro h
    unfold mkEvent
    rw [if_neg (by omega), if_neg (by omega)]
  · intro h
    unfold mkEvent
    rcases lt_or_eq_of_le h with h' | h'
    · exact ⟨_, by rw [if_pos h']⟩
    · exact ⟨_, by rw [if_neg (by omega), if_pos h'.symm]⟩

/-- Witness for C9: a valid construction, a zero-duration rejection and a
reversed-bounds rejection. -/
theorem mkEvent_valid_iff_witness :
    mkEvent "x" 0 1 0 none =
      .ok { name := "x", start_time := 0, end_time := 1, id := 0,
            description := none } ∧
    (∃ msg, mkEvent "x" 1 1 0 none = .error (.valueError msg)) ∧
    (∃ msg, mkEvent "x" 2 1 0 none = .error (.valueError msg)) :=
  ⟨(mkEvent_valid_iff "x" 0 1 0 none).1 (by norm_num),
   (mkEvent_valid_iff "x" 1 1 0 none).2 (by norm_num),
   (mkEvent_valid_iff "x" 2 1 0 none).2 (by norm_num)⟩

/-- C10: calling `overlaps` on two events with the same id — in particular
on an event and itself — raises the invalid-comparison `ValueError` instead
of returning a boolean. -/
theorem overlaps_same_id (a b : Event) (h : a.id = b.id) :
    a.overlaps b =
      .error (.valueError "Impossible de comparer un événement avec lui-même") := by
  unfold Event.overlaps
  rw [if_pos h]

/-- Witness for C10: `e.overlaps e` raises. -/
theorem overlaps_same_id_witness :
    Event.overlaps { name := "e", start_time := 0, end_time := 1, id := 4 }
        { name := "e", start_time := 0, end_time := 1, id := 4 } =
      .error (.valueError "Impossible de comparer un événement avec lui-même") :=
  overlaps_same_id _ _ rfl

/-- C1: for two events with distinct ids, each satisfying the constructor
invariant, `overlaps` returns exactly the half-open interval test
`s1 < e2 AND s2 < e1`; boundary-touching events therefore do not overlap
and identical spans do. -/
theorem overlaps_halfOpen (a b : Event) (ha : a.start_time < a.end_time)
    (hb : b.start_time < b.end_time) (hid : a.id ≠ b.id) :
    a.overlaps b =
      .ok (decide (a.start_time < b.end_time ∧ b.start_time < a.end_time)) := by
  unfold Event.overlaps
  rw [if_neg hid]
  congr 1
  rw [Bool.eq_iff_iff, overlapsBool_iff a b ha hb, decide_eq_true_eq]

/-- Witness for C1: a boundary-touching pair does not overlap, an
identical-span pair does. -/
theorem overlaps_halfOpen_witness :
    Event.overlaps { name := "a", start_time := 10, end_time := 11, id := 1 }
        { name := "b", start_time := 11, end_time := 12, id := 2 } =
      .ok (decide ((10 : Int) < 12 ∧ (11 : Int) < 11)) ∧
    Event.overlaps { name := "c", start_time := 10, end_time := 11, id := 3 }
        { name := "d", start_time := 10, end_time := 11, id := 4 } =
      .ok (decide ((10 : Int) < 11 ∧ (10 : Int) < 11)) :=
  ⟨overlaps_halfOpen _ _ (by norm_num) (by norm_num) (by decide),
   overlaps_halfOpen _ _ (by norm_num) (by norm_num) (by decide)⟩

/-- C8: deserialising a serialised valid event reproduces it exactly
(id, name, times and description, a null description included). -/
theorem from_dict_to_dict (e : Event) (fresh : Nat)
    (h : e.start_time < e.end_time) :
    Event.from_dict e.to_dict fresh = .ok e := by
  simp only [Event.from_dict, Event.to_dict, mkEvent, bind, Except.bind]
  rw [if_neg (by omega), if_neg (by omega)]

/-- Witness for C8: round-trips with a null and with a present
description. -/
theorem from_dict_to_dict_witness :
    Event.from_dict
        (Event.to_dict { name := "e", start_time := 0, end_time := 1, id := 5 }) 9 =
      .ok { name := "e", start_time := 0, end_time := 1, id := 5 } ∧
    Event.from_dict
        (Event.to_dict { name := "f", start_time := 2, end_time := 7, id := 6,
                         description := some "g" }) 9 =
      .ok { name := "f", start_time := 2, end_time := 7, id := 6,
            description := some "g" } :=
  ⟨from_dict_to_dict _ 9 (by norm_num), from_dict_to_dict _ 9 (by norm_num)⟩

/-- When the incoming event's id differs from every stored id, the conflict
scan returns the boolean `any` of the overlap formula over the store. -/
theorem has_conflict_ok (events : List Event) (e : Event)
    (h : ∀ x ∈ events, x.id ≠ e.id) :
    EventManager.has_conflict events e =
      .ok (events.any fun x => overlapsBool x e) := by
  induction events with
  | nil => rfl
  | cons existing rest ih =>
    have hid : existing.id ≠ e.id := h existing (List.mem_cons_self _ _)
    have hrest : ∀ x ∈ rest, x.id ≠ e.id :=
      fun x hx => h x (List.mem_cons_of_mem _ hx)
    simp only [EventManager.has_conflict, Event.overlaps, if_neg hid,
      List.any_cons]
    cases hb : overlapsBool existing e
    · rw [ih hrest]
      simp
    · simp

/-- C2 counterexample: adding an event whose id equals a stored event's id
makes the conflict scan raise the self-comparison `ValueError`, so
`add_event` does not succeed there. -/
theorem add_event_same_id_cex :
    EventManager.add_event
        [{ name := "A", start_time := 0, end_time := 10, id := 1 }]
        { name := "B", start_time := 20, end_time := 30, id := 1 } =
      .error (.valueError "Impossible de comparer un événement avec lui-même") :=
  rfl

/-- C2 (amended): for every event whose id differs from all stored ids,
`add_event` succeeds, returns `True`, appends the event, and warns exactly
when the event overlaps some stored event. -/
theorem add_event_ok (events : List Event) (e : Event)
    (h : ∀ x ∈ events, x.id ≠ e.id) :
    EventManager.add_event events e =
      .ok { warned := events.any fun x => overlapsBool x e,
            events := events ++ [e], ret := true } := by
  simp only [EventManager.add_event, bind, Except.bind, has_conflict_ok events e h]

/-- Witness for C2: an overlapping fresh-id insertion succeeds with the
warning fired and the event appended. -/
theorem add_event_ok_witness :
    EventManager.add_event
        [{ name := "A", start_time := 0, end_time := 10, id := 1 }]
        { name := "B", start_time := 5, end_time := 15, id := 2 } =
      .ok { warned := true,
            events := [{ name := "A", start_time := 0, end_time := 10, id := 1 },
                       { name := "B", start_time := 5, end_time := 15, id := 2 }],
            ret := true } := by
  rw [add_event_ok _ _ (by decide)]
  rfl

/-- C3: loading is recovered as the empty collection for a missing file and
for content `json.load` rejects, but a decodable JSON array holding a
malformed record — here `[ \x7b \x7d ]`, an object with every key absent —
raises `KeyError` to the constructor's caller instead of yielding the empty
collection. -/
theorem load_events_partial_recovery :
    EventManager.load_events .missing = .ok [] ∧
    EventManager.load_events .notJson = .ok [] ∧
    EventManager.load_events (.jsonList [{}]) = .error .keyError :=
  ⟨rfl, rfl, rfl⟩

/-- C4: with three mutually overlapping events A, B, C (ids 1, 2, 3, stored
in that order), the entry of id 2 is `[C]`: the reverse relation `[A]`
recorded while scanning A is overwritten when B's own conflict list is
assigned, so id 1's list contains B while id 2's list does not contain A —
both directions are not recorded. -/
theorem find_conflicts_asymmetric_cex :
    EventManager.find_conflicts
        [{ name := "A", start_time := 0, end_time := 10, id := 1 },
         { name := "B", start_time := 0, end_time := 10, id := 2 },
         { name := "C", start_time := 0, end_time := 10, id := 3 }] =
      .ok [(1, [{ name := "B", start_time := 0, end_time := 10, id := 2 },
                { name := "C", start_time := 0, end_time := 10, id := 3 }]),
           (2, [{ name := "C", start_time := 0, end_time := 10, id := 3 }]),
           (3, [{ name := "A", start_time := 0, end_time := 10, id := 1 },
                { name := "B", start_time := 0, end_time := 10, id := 2 }])] ∧
    ({ name := "A", start_time := 0, end_time := 10, id := 1 } : Event) ∉
      [({ name := "C", start_time := 0, end_time := 10, id := 3 } : Event)] :=
  ⟨rfl, by decide⟩

/-- C6: the window filter equals `list_events()` filtered by the conjunction
of the two inclusive bound tests, an absent bound imposing nothing. -/
theorem list_events_between_eq_filter (events : List Event)
    (start stop : Option Int) :
    EventManager.list_events_between events start stop =
      (EventManager.list_events events).filter fun e =>
        (match start with
          | none => true
          | some s => decide (s ≤ e.end_time)) &&
        (match stop with
          | none => true
          | some t => decide (e.start_time ≤ t)) := by
  cases start <;> cases stop <;>
    simp [EventManager.list_events_between, List.filter_filter, Bool.and_comm]

/-- Inserting into a list commutes with filtering by a predicate that only
holds on a single sort key: the element lands in front of its key class. -/
theorem filter_orderedInsert_key (p : Event → Bool)
    (hp : ∀ a b, p a = true → p b = true → EventManager.keyLe a b)
    (a : Event) (l : List Event) :
    (l.orderedInsert EventManager.keyLe a).filter p =
      if p a then a :: l.filter p else l.filter p := by
  induction l with
  | nil =>
    simp [List.orderedInsert, List.filter_cons]
  | cons b l ih =>
    simp only [List.orderedInsert]
    by_cases hr : EventManager.keyLe a b
    · rw [if_pos hr, List.filter_cons]
    · rw [if_neg hr, List.filter_cons, ih, List.filter_cons]
      cases hpa : p a <;> cases hpb : p b
      · simp
      · simp
      · simp
      · exact absurd (hp a b hpa hpb) hr

/-- The stable sort does not reorder events sharing one sort key. -/
theorem filter_insertionSort_key (p : Event → Bool)
    (hp : ∀ a b, p a = true → p b = true → EventManager.keyLe a b)
    (l : List Event) :
    (l.insertionSort EventManager.keyLe).filter p = l.filter p := by
  induction l with
  | nil => rfl
  | cons a l ih =>
    simp only [List.insertionSort]
    rw [filter_orderedInsert_key p hp, ih, List.filter_cons]

/-- C7: `list_events()` is a permutation of the store, sorted ascending by
the `(start_time, end_time)` key (ties on start broken by end), and events
with identical keys keep their store order. -/
theorem list_events_sorted_stable (events : List Event) :
    List.Perm (EventManager.list_events events) events ∧
    (EventManager.list_events events).Sorted EventManager.keyLe ∧
    ∀ s t : Int,
      (EventManager.list_events events).filter
          (fun e => decide (e.start_time = s ∧ e.end_time = t)) =
        events.filter fun e => decide (e.start_time = s ∧ e.end_time = t) :=
  ⟨List.perm_insertionSort _ _, List.sorted_insertionSort _ _,
   fun s t =>
     filter_insertionSort_key _
       (fun a b hpa hpb => by
         simp only [decide_eq_true_eq] at hpa hpb
         unfold EventManager.keyLe
         omega)
       events⟩

/-- Lookup after a dict assignment: the assigned key reads the new value,
every other key is untouched. -/
theorem dictLookup_dictSet (d : EventManager.ConflictDict) (k : Nat)
    (v : List Event) (k' : Nat) :
    EventManager.dictLookup (EventManager.dictSet d k v) k' =
      if k = k' then some v else EventManager.dictLookup d k' := by
  induction d with
  | nil =>
    simp only [EventManager.dictSet, EventManager.dictLookup]
  | cons kv rest ih =>
    obtain ⟨k'', v''⟩ := kv
    simp only [EventManager.dictSet]
    by_cases h : k'' = k
    · subst h
      simp only [if_pos rfl, EventManager.dictLookup]
      by_cases h' : k'' = k' <;> simp [h']
    · rw [if_neg h]
      simp only [EventManager.dictLookup, ih]
      by_cases h1 : k'' = k'
      · subst h1
        have hne : k ≠ k'' := fun hkk => h hkk.symm
        simp [hne]
      · simp [h1]

/-- Lookup after the inner-loop push: the pushed key gains the event at the
end of its list (an absent key starting from the empty list), every other
key is untouched. -/
theorem dictLookup_dictPush (d : EventManager.ConflictDict) (k : Nat)
    (e : Event) (k' : Nat) :
    EventManager.dictLookup (EventManager.dictPush d k e) k' =
      if k = k' then some ((EventManager.dictLookup d k).getD [] ++ [e])
      else EventManager.dictLookup d k' := by
  unfold EventManager.dictPush
  cases h : EventManager.dictLookup d k <;> simp [dictLookup_dictSet, h]

/-- A key is present after the reverse-relation fold exactly when it was
present before or belongs to one of the pushed events. -/
theorem isSome_dictLookup_foldl_push (event : Event) (cs : List Event) :
    ∀ (d : EventManager.ConflictDict) (k : Nat),
      ((EventManager.dictLookup
          (cs.foldl (fun dd o => EventManager.dictPush dd o.id event) d)
          k).isSome = true ↔
        ((EventManager.dictLookup d k).isSome = true ∨ ∃ o ∈ cs, o.id = k)) := by
  induction cs with
  | nil => simp
  | cons o cs ih =>
    intro d k
    simp only [List.foldl_cons]
    rw [ih, dictLookup_dictPush]
    by_cases h : o.id = k <;> simp [h, or_assoc]

/-- The reverse-relation fold never leaves an empty list in the dict. -/
theorem dictLookup_foldl_push_ne_nil (event : Event) (cs : List Event) :
    ∀ d : EventManager.ConflictDict,
      (∀ k, EventManager.dictLookup d k ≠ some []) →
      ∀ k, EventManager.dictLookup
          (cs.foldl (fun dd o => EventManager.dictPush dd o.id event) d)
          k ≠ some [] := by
  induction cs with
  | nil =>
    intro d h k
    simpa using h k
  | cons o cs ih =>
    intro d h k
    simp only [List.foldl_cons]
    refine ih _ ?_ k
    intro k'
    rw [dictLookup_dictPush]
    by_cases h' : o.id = k' <;> simp [h', h k']

/-- When the scanned event's id differs from every later id, the conflict
comprehension returns the filter of the overlap formula. -/
theorem conflicting_events_ok (event : Event) (rest : List Event)
    (h : ∀ o ∈ rest, event.id ≠ o.id) :
    EventManager.conflicting_events event rest =
      .ok (rest.filter fun o => overlapsBool event o) := by
  induction rest with
  | nil => rfl
  | cons o os ih =>
    have ho : event.id ≠ o.id := h o (List.mem_cons_self _ _)
    have hos : ∀ o' ∈ os, event.id ≠ o'.id :=
      fun o' h' => h o' (List.mem_cons_of_mem _ h')
    simp only [EventManager.conflicting_events, Event.overlaps, if_neg ho,
      bind, Except.bind, ih hos, List.filter_cons]

/-- How one outer-loop iteration moves the key invariant forward: after
`event` is processed, a key is accounted for exactly when it was accounted
for before, or it is `event`'s id and `event` has a later partner, or it is
the id of a later event overlapping `event`. -/
theorem keyAppears_step (seen rest' : List Event) (event : Event) (k : Nat)
    (h1 : ∀ o ∈ rest', event.id ≠ o.id) :
    keyAppears (seen ++ [event]) rest' k ↔
      (keyAppears seen (event :: rest') k ∨
        (k = event.id ∧ ∃ o ∈ rest', overlapsBool event o = true) ∨
        ∃ o ∈ rest', o.id = k ∧ overlapsBool event o = true) := by
  have hl : (seen ++ [event]) ++ rest' = seen ++ event :: rest' := by simp
  simp only [keyAppears, hasPartner]
  constructor
  · rintro (⟨x, hx, hxk, hp⟩ | ⟨x, hx, hxk, hp⟩)
    · rw [hl] at hp
      rcases List.mem_append.mp hx with hxs | hxe
      · exact Or.inl (Or.inl ⟨x, hxs, hxk, hp⟩)
      · have hx' : x = event := by simpa using hxe
        subst hx'
        rcases hp with ⟨y, hy, hyx, hov⟩
        rcases List.mem_append.mp hy with hys | hyc
        · exact Or.inl (Or.inr ⟨x, List.mem_cons_self _ _, hxk, y, hys, hyx, hov⟩)
        · rcases List.mem_cons.mp hyc with hye | hyr
          · exact absurd (by rw [hye]) hyx
          · exact Or.inr (Or.inl ⟨hxk.symm, y, hyr, hov⟩)
    · rcases hp with ⟨y, hy, hyx, hov⟩
      rcases List.mem_append.mp hy with hys | hye
      · exact Or.inl (Or.inr ⟨x, List.mem_cons_of_mem _ hx, hxk, y, hys, hyx, hov⟩)
      · have hy' : y = event := by simpa using hye
        subst hy'
        refine Or.inr (Or.inr ⟨x, hx, hxk, ?_⟩)
        rw [overlapsBool_symm]
        exact hov
  · rintro ((⟨x, hx, hxk, hp⟩ | ⟨x, hx, hxk, hp⟩) | ⟨hk, o, ho, hov⟩ | ⟨o, ho, hok, hov⟩)
    · refine Or.inl ⟨x, List.mem_append_left _ hx, hxk, ?_⟩
      rw [hl]
      exact hp
    · rcases hp with ⟨y, hy, hyx, hov⟩
      rcases List.mem_cons.mp hx with hxe | hxr
      · subst hxe
        refine Or.inl ⟨x, List.mem_append_right _ (List.mem_singleton_self _),
          hxk, ?_⟩
        rw [hl]
        exact ⟨y, List.mem_append_left _ hy, hyx, hov⟩
      · exact Or.inr ⟨x, hxr, hxk, y, List.mem_append_left _ hy, hyx, hov⟩
    · refine Or.inl ⟨event, List.mem_append_right _ (List.mem_singleton_self _),
        hk.symm, ?_⟩
      rw [hl]
      exact ⟨o, List.mem_append_right _ (List.mem_cons_of_mem _ ho),
        Ne.symm (h1 o ho), hov⟩
    · refine Or.inr ⟨o, ho, hok, event,
        List.mem_append_right _ (List.mem_singleton_self _), h1 o ho, ?_⟩
      rw [overlapsBool_symm]
      exact hov

/-- Loop invariant of the `find_conflicts` scan: started on the unprocessed
suffix with a dict whose keys are the accounted-for ids and whose lists are
all non-empty, it terminates without an exception in a dict whose keys are
the ids accounted for by the whole list, again with no empty list. -/
theorem find_conflicts_aux_spec :
    ∀ (rest seen : List Event) (d : EventManager.ConflictDict),
      ((seen ++ rest).Pairwise fun a b => a.id ≠ b.id) →
      (∀ k, ((EventManager.dictLookup d k).isSome = true ↔
        keyAppears seen rest k)) →
      (∀ k, EventManager.dictLookup d k ≠ some []) →
      ∃ d', EventManager.find_conflicts_aux rest d = .ok d' ∧
        (∀ k, ((EventManager.dictLookup d' k).isSome = true ↔
          keyAppears (seen ++ rest) [] k)) ∧
        (∀ k, EventManager.dictLookup d' k ≠ some []) := by
  intro rest
  induction rest with
  | nil =>
    intro seen d hp hkey hne
    refine ⟨d, rfl, ?_, hne⟩
    simpa using hkey
  | cons event rest' ih =>
    intro seen d hp hkey hne
    have hpr : (event :: rest').Pairwise (fun a b => a.id ≠ b.id) :=
      (List.pairwise_append.mp hp).2.1
    have h1 : ∀ o ∈ rest', event.id ≠ o.id := (List.pairwise_cons.mp hpr).1
    have hp' : ((seen ++ [event]) ++ rest').Pairwise (fun a b => a.id ≠ b.id) := by
      rw [List.append_assoc, List.singleton_append]
      exact hp
    have hl2 : (seen ++ [event]) ++ rest' = seen ++ event :: rest' := by simp
    set cs := rest'.filter (fun o => overlapsBool event o) with hcs
    have hun : EventManager.find_conflicts_aux (event :: rest') d =
        EventManager.find_conflicts_aux rest'
          (if cs.isEmpty then d
           else cs.foldl (fun dd o => EventManager.dictPush dd o.id event)
             (EventManager.dictSet d event.id cs)) := by
      simp only [EventManager.find_conflicts_aux,
        conflicting_events_ok event rest' h1, bind, Except.bind]
    by_cases hemp : cs.isEmpty
    · have hcsnil : cs = [] := by simpa using hemp
      have hno : ∀ o ∈ rest', ¬ (overlapsBool event o = true) := by
        intro o ho hov
        have : o ∈ cs := by
          rw [hcs]
          exact List.mem_filter.mpr ⟨ho, hov⟩
        rw [hcsnil] at this
        cases this
      have hkey' : ∀ k, ((EventManager.dictLookup d k).isSome = true ↔
          keyAppears (seen ++ [event]) rest' k) := by
        intro k
        rw [keyAppears_step seen rest' event k h1]
        constructor
        · intro h
          exact Or.inl ((hkey k).mp h)
        · rintro (h | ⟨_, o, ho, hov⟩ | ⟨o, ho, _, hov⟩)
          · exact (hkey k).mpr h
          · exact absurd hov (hno o ho)
          · exact absurd hov (hno o ho)
      obtain ⟨d', hd1, hd2, hd3⟩ := ih (seen ++ [event]) d hp' hkey' hne
      simp only [hl2] at hd2
      exact ⟨d', by rw [hun, if_pos hemp]; exact hd1, hd2, hd3⟩
    · have hcsne : cs ≠ [] := by simpa using hemp
      have hkey' : ∀ k, ((EventManager.dictLookup
          (cs.foldl (fun dd o => EventManager.dictPush dd o.id event)
            (EventManager.dictSet d event.id cs)) k).isSome = true ↔
          keyAppears (seen ++ [event]) rest' k) := by
        intro k
        rw [isSome_dictLookup_foldl_push, keyAppears_step seen rest' event k h1,
          dictLookup_dictSet]
        by_cases hk : event.id = k
        · rw [if_pos hk]
          constructor
          · intro _
            obtain ⟨o, ho⟩ := List.exists_mem_of_ne_nil cs hcsne
            rw [hcs] at ho
            have hm := List.mem_filter.mp ho
            exact Or.inr (Or.inl ⟨hk.symm, o, hm.1, hm.2⟩)
          · intro _
            exact Or.inl (by simp)
        · rw [if_neg hk, hkey k]
          constructor
          · rintro (h | ⟨o, ho, hok⟩)
            · exact Or.inl h
            · rw [hcs] at ho
              have hm := List.mem_filter.mp ho
              exact Or.inr (Or.inr ⟨o, hm.1, hok, hm.2⟩)
          · rintro (h | ⟨hke, _⟩ | ⟨o, ho, hok, hov⟩)
            · exact Or.inl h
            · exact absurd hke.symm hk
            · refine Or.inr ⟨o, ?_, hok⟩
              rw [hcs]
              exact List.mem_filter.mpr ⟨ho, hov⟩
      have hne' : ∀ k, EventManager.dictLookup
          (cs.foldl (fun dd o => EventManager.dictPush dd o.id event)
            (EventManager.dictSet d event.id cs)) k ≠ some [] := by
        refine dictLookup_foldl_push_ne_nil event cs _ ?_
        intro k'
        rw [dictLookup_dictSet]
        by_cases hk : event.id = k'
        · rw [if_pos hk]
          simpa using hcsne
        · rw [if_neg hk]
          exact hne k'
      obtain ⟨d', hd1, hd2, hd3⟩ := ih (seen ++ [event]) _ hp' hkey' hne'
      simp only [hl2] at hd2
      exact ⟨d', by rw [hun, if_neg hemp]; exact hd1, hd2, hd3⟩

/-- C5: on a store with pairwise distinct ids, `find_conflicts()` returns a
mapping with no empty-list entry whose keys are ids of stored events, and an
event's id appears as a key exactly when that event overlaps at least one
other stored event. -/
theorem find_conflicts_keys (events : List Event)
    (hids : events.Pairwise fun a b => a.id ≠ b.id) :
    ∃ d, EventManager.find_conflicts events = .ok d ∧
      (∀ k, EventManager.dictLookup d k ≠ some []) ∧
      (∀ k, (EventManager.dictLookup d k).isSome = true →
        ∃ e ∈ events, e.id = k) ∧
      ∀ e ∈ events,
        ((EventManager.dictLookup d e.id).isSome = true ↔
          ∃ y ∈ events, y.id ≠ e.id ∧ overlapsBool e y = true) := by
  have h0 : ∀ k,
      ((EventManager.dictLookup ([] : EventManager.ConflictDict) k).isSome = true ↔
        keyAppears [] events k) := by
    intro k
    simp [EventManager.dictLookup, keyAppears, hasPartner]
  obtain ⟨d, hd1, hd2, hd3⟩ :=
    find_conflicts_aux_spec events [] [] (by simpa using hids) h0
      (by intro k; simp [EventManager.dictLookup])
  refine ⟨d, hd1, hd3, ?_, ?_⟩
  · intro k hk
    have hkk := (hd2 k).mp hk
    simp only [keyAppears, List.nil_append, List.append_nil] at hkk
    rcases hkk with ⟨x, hx, hxk, _⟩ | ⟨x, hx, _⟩
    · exact ⟨x, hx, hxk⟩
    · cases hx
  · intro e he
    rw [hd2 e.id]
    simp only [keyAppears, hasPartner, List.nil_append, List.append_nil]
    constructor
    · rintro (⟨x, hx, hxk, y, hy, hyx, hov⟩ | ⟨x, hx, _⟩)
      · have hxe : x = e := eq_of_mem_of_id_eq hids hx he hxk
        subst hxe
        exact ⟨y, hy, hyx, hov⟩
      · cases hx
    · rintro ⟨y, hy, hye, hov⟩
      exact Or.inl ⟨e, he, rfl, y, hy, hye, hov⟩

/-- Witness for C5: two overlapping events and one isolated event — the
isolated id 7 is absent, ids 1 and 2 are present, nothing maps to an empty
list. -/
theorem find_conflicts_keys_witness :
    ∃ d, EventManager.find_conflicts
        [{ name := "A", start_time := 0, end_time := 10, id := 1 },
         { name := "B", start_time := 5, end_time := 15, id := 2 },
         { name := "X", start_time := 20, end_time := 30, id := 7 }] = .ok d ∧
      (∀ k, EventManager.dictLookup d k ≠ some []) ∧
      (∀ k, (EventManager.dictLookup d k).isSome = true →
        ∃ e ∈ [({ name := "A", start_time := 0, end_time := 10, id := 1 } : Event),
               { name := "B", start_time := 5, end_time := 15, id := 2 },
               { name := "X", start_time := 20, end_time := 30, id := 7 }],
          e.id = k) ∧
      ∀ e ∈ [({ name := "A", start_time := 0, end_time := 10, id := 1 } : Event),
             { name := "B", start_time := 5, end_time := 15, id := 2 },
             { name := "X", start_time := 20, end_time := 30, id := 7 }],
        ((EventManager.dictLookup d e.id).isSome = true ↔
          ∃ y ∈ [({ name := "A", start_time := 0, end_time := 10, id := 1 } : Event),
                 { name := "B", start_time := 5, end_time := 15, id := 2 },
                 { name := "X", start_time := 20, end_time := 30, id := 7 }],
            y.id ≠ e.id ∧ overlapsBool e y = true) :=
  find_conflicts_keys _ (by decide)


